import Mathlib

/-!
Shallow embedding of the declarative reconciliation and patch-generation
engine of plugins/module_utils/utils.py (ansible-mso), together with proofs
of the specification claims about it.

Python data is modelled as follows: JSON-like values become the inductive
type Value (Python None is the constructor vnone); dictionaries become
association lists preserving insertion order, with assignment, lookup and
pop translated as setV, lookupV and popV; Python equality == becomes the
structural test beqV, and the identity test is None becomes the
constructor test Value.isNone; a raised exception becomes an Option PyErr
carried alongside the state that was mutated in place before the raise.
-/

set_option autoImplicit false

namespace MsoUtils

/-- A Python value as it occurs in the snapshots handled by utils.py:
None, booleans, integers, strings, lists, and dictionaries with string
keys modelled as insertion-ordered association lists. -/
inductive Value where
  | vnone : Value
  | vbool : Bool → Value
  | vint : Int → Value
  | vstr : String → Value
  | vlist : List Value → Value
  | vdict : List (String × Value) → Value

mutual

/-- Python structural equality == on values. -/
def beqV : Value → Value → Bool
  | .vnone, .vnone => true
  | .vbool a, .vbool b => a == b
  | .vint a, .vint b => a == b
  | .vstr a, .vstr b => a == b
  | .vlist a, .vlist b => beqLV a b
  | .vdict a, .vdict b => beqEV a b
  | _, _ => false

/-- Python structural equality on lists of values. -/
def beqLV : List Value → List Value → Bool
  | [], [] => true
  | a :: as, b :: bs => beqV a b && beqLV as bs
  | _, _ => false

/-- Python structural equality on dictionary entry lists. -/
def beqEV : List (String × Value) → List (String × Value) → Bool
  | [], [] => true
  | (k1, v1) :: as, (k2, v2) :: bs => k1 == k2 && beqV v1 v2 && beqEV as bs
  | _, _ => false

end

instance : BEq Value := ⟨beqV⟩

/-- Python identity test with the None singleton: value is None. -/
def Value.isNone : Value → Bool
  | .vnone => true
  | _ => false

/-- Python d.get(key) and d[key] on a dict modelled as an association
list: the value of the first entry with the given key. -/
def lookupV : List (String × Value) → String → Option Value
  | [], _ => none
  | (k, v) :: rest, key => if k = key then some v else lookupV rest key

/-- Python d[key] = value on a dict: overwrite in place the first entry
with the given key, keeping its position, or append a new entry at the
end (CPython dicts preserve insertion order). -/
def setV : List (String × Value) → String → Value → List (String × Value)
  | [], key, nv => [(key, nv)]
  | (k, v) :: rest, key, nv => if k = key then (key, nv) :: rest else (k, v) :: setV rest key nv

/-- Python d.pop(key) on a dict: drop the first entry with the given key,
keeping the order of the others. -/
def popV : List (String × Value) → String → List (String × Value)
  | [], _ => []
  | (k, v) :: rest, key => if k = key then rest else (k, v) :: popV rest key

/-- Python == lifted to the result of d.get: both sides absent counts as
equal, one side absent is unequal. -/
def optBeqV : Option Value → Option Value → Bool
  | some a, some b => beqV a b
  | none, none => true
  | _, _ => false

/-- Python substring containment, needle in hay, on the underlying
character lists; used to model the expression key in data when data is a
string. -/
def subListB (n : List Char) : List Char → Bool
  | [] => n.isEmpty
  | c :: rest => List.isPrefixOf n (c :: rest) || subListB n rest

/-- A patch operation as built at utils.py lines 101-106 and 117-121:
either op = replace with a path and a value, or op = remove with a path.
The replace value is recorded at emission time (the source deep-copies it;
heap-level isolation of that copy is modelled separately below). -/
inductive Op where
  | replace : String → Value → Op
  | remove : String → Op

/-- The Python exceptions that the engine can raise: the explicit
TypeError raises at utils.py lines 128 and 135, plus the implicit
AttributeError (calling .get or .pop on a non-dict), IndexError (keys[0]
on an empty tuple) and TypeError (the operator in on a non-container, or
indexing a list or string with a string key). -/
inductive PyErr where
  | typeError : String → PyErr
  | attributeError : PyErr
  | indexError : PyErr
deriving DecidableEq

/-- The path string built step by step by the walks: the source computes
"{}/{}".format(path, key) at each level. -/
def joinPath (path : String) : List String → String
  | [] => path
  | k :: rest => joinPath (path ++ "/" ++ k) rest

/-- Embedding of recursive_replace (utils.py lines 95-109). The result
carries the data after in-place mutation, the operations appended (in
order), and the exception raised, if any. The walk follows Python
semantics exactly: keys[0] on an empty path raises IndexError; at the
final segment, data.get raises AttributeError on a non-dict (unless
new_value is None, short-circuited first); at an intermediate segment,
key in data is a key test on dicts, a membership test on lists, a
substring test on strings and a TypeError otherwise, and a successful
test on a list or string then raises TypeError at data[key]. -/
def recursive_replace : Value → String → List String → Value → Value × List Op × Option PyErr
  | data, _, [], _ => (data, [], some .indexError)
  | data, path, [key], newValue =>
      if newValue.isNone then (data, [], none)
      else
        match data with
        | .vdict entries =>
            if optBeqV (lookupV entries key) (some newValue) then (.vdict entries, [], none)
            else
              (.vdict (setV entries key newValue),
               [.replace (path ++ "/" ++ key) newValue], none)
        | _ => (data, [], some .attributeError)
  | data, path, key :: k2 :: rest, newValue =>
      match data with
      | .vdict entries =>
          match lookupV entries key with
          | some sub =>
              let r := recursive_replace sub (path ++ "/" ++ key) (k2 :: rest) newValue
              (.vdict (setV entries key r.1), r.2.1, r.2.2)
          | none => (.vdict entries, [], none)
      | .vlist items =>
          if items.contains (.vstr key) then (data, [], some (.typeError "list indices must be integers"))
          else (data, [], none)
      | .vstr s =>
          if subListB key.data s.data then (data, [], some (.typeError "string indices must be integers"))
          else (data, [], none)
      | _ => (data, [], some (.typeError "argument is not iterable"))

/-- Embedding of recursive_delete (utils.py lines 111-124), with the same
conventions as recursive_replace. At the final segment, key in data on a
string that succeeds then raises AttributeError at data.pop, and on a
list raises TypeError. -/
def recursive_delete : Value → String → List String → Value × List Op × Option PyErr
  | data, _, [] => (data, [], some .indexError)
  | data, path, [key] =>
      match data with
      | .vdict entries =>
          if (lookupV entries key).isSome then
            (.vdict (popV entries key), [.remove (path ++ "/" ++ key)], none)
          else (.vdict entries, [], none)
      | .vlist items =>
          if items.contains (.vstr key) then (data, [], some (.typeError "pop expected an int"))
          else (data, [], none)
      | .vstr s =>
          if subListB key.data s.data then (data, [], some .attributeError)
          else (data, [], none)
      | _ => (data, [], some (.typeError "argument is not iterable"))
  | data, path, key :: k2 :: rest =>
      match data with
      | .vdict entries =>
          match lookupV entries key with
          | some sub =>
              let r := recursive_delete sub (path ++ "/" ++ key) (k2 :: rest)
              (.vdict (setV entries key r.1), r.2.1, r.2.2)
          | none => (.vdict entries, [], none)
      | .vlist items =>
          if items.contains (.vstr key) then (data, [], some (.typeError "list indices must be integers"))
          else (data, [], none)
      | .vstr s =>
          if subListB key.data s.data then (data, [], some (.typeError "string indices must be integers"))
          else (data, [], none)
      | _ => (data, [], some (.typeError "argument is not iterable"))

/-- A key of replace_data or an element of remove_data: the source
normalizes it with key if isinstance(key, tuple) else (key,), so it is
either a bare string or a tuple of strings. -/
inductive PKey where
  | bare : String → PKey
  | tup : List String → PKey
deriving DecidableEq

/-- The normalization key if isinstance(key, tuple) else (key,) at
utils.py lines 131 and 138. -/
def PKey.toPath : PKey → List String
  | .bare s => [s]
  | .tup l => l

/-- The replace_data argument as a Python object: the default None, a
dict from keys to values, or some other object of which only the
truthiness matters (the source tests if replace_data before the
isinstance check). -/
inductive ReplaceArg where
  | pynone : ReplaceArg
  | dict : List (PKey × Value) → ReplaceArg
  | nondict : Bool → ReplaceArg

/-- Python truthiness of the replace_data argument: None is falsy, a dict
is truthy iff nonempty, any other object carries its own truthiness. -/
def ReplaceArg.truthy : ReplaceArg → Bool
  | .pynone => false
  | .dict l => !l.isEmpty
  | .nondict b => b

/-- The remove_data argument as a Python object, mirroring ReplaceArg. -/
inductive RemoveArg where
  | pynone : RemoveArg
  | list : List PKey → RemoveArg
  | nonlist : Bool → RemoveArg

/-- Python truthiness of the remove_data argument. -/
def RemoveArg.truthy : RemoveArg → Bool
  | .pynone => false
  | .list l => !l.isEmpty
  | .nonlist b => b

/-- The for loop over replace_data.items() at utils.py lines 130-131:
entries are processed in declaration order, and an exception raised by
recursive_replace aborts the loop with the mutations made so far kept. -/
def replaceLoop : Value → String → List (PKey × Value) → Value × List Op × Option PyErr
  | data, _, [] => (data, [], none)
  | data, path, (k, v) :: rest =>
      let r := recursive_replace data path k.toPath v
      match r.2.2 with
      | some e => (r.1, r.2.1, some e)
      | none =>
          let r2 := replaceLoop r.1 path rest
          (r2.1, r.2.1 ++ r2.2.1, r2.2.2)

/-- The for loop over remove_data at utils.py lines 137-138. -/
def removeLoop : Value → String → List PKey → Value × List Op × Option PyErr
  | data, _, [] => (data, [], none)
  | data, path, k :: rest =>
      let r := recursive_delete data path k.toPath
      match r.2.2 with
      | some e => (r.1, r.2.1, some e)
      | none =>
          let r2 := removeLoop r.1 path rest
          (r2.1, r.2.1 ++ r2.2.1, r2.2.2)

/-- The outcome of one call to append_update_ops_data: the final contents
of the caller's ops list (input list plus appended operations), the
existing_data after in-place mutation, and the exception propagated to
the caller, if any. -/
structure CallResult where
  ops : List Op
  data : Value
  err : Option PyErr

/-- The remove phase of append_update_ops_data (utils.py lines 133-138):
if remove_data is truthy, a non-list raises TypeError, otherwise the
remove loop runs. -/
def removePhase (ops : List Op) (data : Value) (path : String) : RemoveArg → CallResult
  | .list keys =>
      if keys.isEmpty then ⟨ops, data, none⟩
      else
        let r := removeLoop data path keys
        ⟨ops ++ r.2.1, r.1, r.2.2⟩
  | .nonlist b =>
      if b then ⟨ops, data, some (.typeError "remove_data must be a list of string or tuples")⟩
      else ⟨ops, data, none⟩
  | .pynone => ⟨ops, data, none⟩

/-- Embedding of append_update_ops_data (utils.py lines 24-138): the
replace phase runs first (truthiness test, isinstance check raising
TypeError, then the replace loop); an exception anywhere aborts the call,
keeping the mutations already made; otherwise the remove phase runs. -/
def append_update_ops_data (ops : List Op) (existing_data : Value) (update_path : String)
    (replace_data : ReplaceArg) (remove_data : RemoveArg) : CallResult :=
  match replace_data with
  | .dict entries =>
      if entries.isEmpty then removePhase ops existing_data update_path remove_data
      else
        let r := replaceLoop existing_data update_path entries
        match r.2.2 with
        | some e => ⟨ops ++ r.2.1, r.1, some e⟩
        | none => removePhase (ops ++ r.2.1) r.1 update_path remove_data
  | .nondict b =>
      if b then ⟨ops, existing_data, some (.typeError "replace_data must be a dict")⟩
      else removePhase ops existing_data update_path remove_data
  | .pynone => removePhase ops existing_data update_path remove_data

/-- Python input_dict.get(old_key) at utils.py line 185: the stored value
or None when the key is missing. -/
def pyGet (input : List (String × Value)) (k : String) : Value :=
  (lookupV input k).getD .vnone

/-- The for loop over key_mapping.items() at utils.py lines 184-185,
threading the output dictionary through successive assignments. -/
def mapKeysLoop (input : List (String × Value)) :
    List (String × String) → List (String × Value) → List (String × Value)
  | [], acc => acc
  | (oldK, newK) :: rest, acc => mapKeysLoop input rest (setV acc newK (pyGet input oldK))

/-- Embedding of map_keys_to_new_dict (utils.py lines 151-187). The
input_dict argument is an optional dictionary (None or a dict); the
source tests if input_dict, so both None and an empty dict yield the
empty output dictionary. -/
def map_keys_to_new_dict (input_dict : Option (List (String × Value)))
    (key_mapping : List (String × String)) : List (String × Value) :=
  match input_dict with
  | none => []
  | some entries =>
      if entries.isEmpty then []
      else mapKeysLoop entries key_mapping []

mutual

/-- Embedding of remove_none_values (utils.py lines 190-219): recursively
drop None values from dictionaries and lists; a dictionary or list that
ends up empty collapses to None via the expression ... or None; any other
value passes through unchanged. -/
def remove_none_values : Value → Value
  | .vdict entries =>
      let c := rnvEntries entries
      if c.isEmpty then .vnone else .vdict c
  | .vlist items =>
      let c := rnvItems items
      if c.isEmpty then .vnone else .vlist c
  | v => v

/-- The dictionary comprehensions of remove_none_values fused: keep an
entry when its value is not None and its recursive cleaning is not
None. -/
def rnvEntries : List (String × Value) → List (String × Value)
  | [] => []
  | (k, v) :: rest =>
      if v.isNone then rnvEntries rest
      else
        let r := remove_none_values v
        if r.isNone then rnvEntries rest else (k, r) :: rnvEntries rest

/-- The list comprehensions of remove_none_values fused, as for
rnvEntries. -/
def rnvItems : List Value → List Value
  | [] => []
  | v :: rest =>
      if v.isNone then rnvItems rest
      else
        let r := remove_none_values v
        if r.isNone then rnvItems rest else r :: rnvItems rest

end

/-- Lookup in the main dictionary of merge_sub_dict_into_main, whose keys
may be bare strings or tuples. -/
def lookupPK : List (PKey × Value) → PKey → Option Value
  | [], _ => none
  | (k, v) :: rest, key => if k = key then some v else lookupPK rest key

/-- Assignment in the main dictionary of merge_sub_dict_into_main, with
the same in-place-or-append semantics as setV. -/
def setPK : List (PKey × Value) → PKey → Value → List (PKey × Value)
  | [], key, nv => [(key, nv)]
  | (k, v) :: rest, key, nv => if k = key then (key, nv) :: rest else (k, v) :: setPK rest key nv

/-- The for loop over sub_dict.items() at utils.py lines 260-261: each
value is stored under the tuple key prefix_list plus the sub key. -/
def mergeLoop (prefixKeys : List String) :
    List (PKey × Value) → List (String × Value) → List (PKey × Value)
  | main, [] => main
  | main, (k, v) :: rest => mergeLoop prefixKeys (setPK main (.tup (prefixKeys ++ [k])) v) rest

/-- Embedding of merge_sub_dict_into_main (utils.py lines 222-263): the
source tests if sub_dict, so an empty (or absent) sub dictionary leaves
the main dictionary untouched. -/
def merge_sub_dict_into_main (main_dict : List (PKey × Value))
    (sub_dict : List (String × Value)) (prefix_keys : List String) : List (PKey × Value) :=
  if sub_dict.isEmpty then main_dict
  else mergeLoop prefix_keys main_dict sub_dict

/-- Pure lookup of a nested location in a snapshot: follow the key path
through dictionaries, returning none when a key is missing or a non-dict
is reached before the path ends. Used only to state frame properties. -/
def getPath : Value → List String → Option Value
  | v, [] => some v
  | .vdict entries, k :: rest =>
      match lookupV entries k with
      | some sub => getPath sub rest
      | none => none
  | _, _ :: _ => none

/-- Two key paths are incomparable when neither is a prefix of the other;
in particular they are distinct and address disjoint subtrees. -/
def PathIncomp (p q : List String) : Prop :=
  ¬ p <+: q ∧ ¬ q <+: p

instance (p q : List String) : Decidable (PathIncomp p q) := by
  unfold PathIncomp; infer_instance

theorem PathIncomp.symm {p q : List String} (h : PathIncomp p q) : PathIncomp q p :=
  ⟨h.2, h.1⟩

/-!
Heap-level model for the deep copy at utils.py line 105. The emitted
replace operation carries copy.deepcopy(new_value); to express that later
in-place mutation of the original object cannot alter the recorded value,
Python objects are modelled as nodes in a heap addressed by Nat, where a
deep copy allocates fresh nodes only, and an in-place mutation overwrites
one pre-existing address.
-/

/-- One heap node of a Python object graph: an immutable scalar payload,
a dictionary mapping string keys to addresses, or a list of addresses. -/
inductive HNode where
  | hscalar : Value → HNode
  | hdict : List (String × Nat) → HNode
  | hlist : List Nat → HNode

/-- Read the node at an address; addresses are indices into the heap. -/
def heapGet : List HNode → Nat → Option HNode
  | [], _ => none
  | nd :: _, 0 => some nd
  | _ :: rest, a + 1 => heapGet rest a

/-- Overwrite the node at an address in place, modelling an in-place
mutation of the Python object living there. -/
def heapSet : List HNode → Nat → HNode → List HNode
  | [], _, _ => []
  | _ :: rest, 0, n => n :: rest
  | m :: rest, a + 1, n => m :: heapSet rest a n

/-- The addresses a node refers to. -/
def nodeChildren : HNode → List Nat
  | .hscalar _ => []
  | .hdict entries => entries.map Prod.snd
  | .hlist items => items

mutual

/-- Model of copy.deepcopy as called at utils.py line 105: build a fresh
object graph for the given value by allocating new nodes at the end of
the heap, returning the extended heap and the address of the copy. -/
def allocV : List HNode → Value → List HNode × Nat
  | h, .vdict entries =>
      let r := allocEntries h entries
      (r.1 ++ [.hdict r.2], r.1.length)
  | h, .vlist items =>
      let r := allocItems h items
      (r.1 ++ [.hlist r.2], r.1.length)
  | h, v => (h ++ [.hscalar v], h.length)

/-- Deep copy of the entries of a dictionary, left to right. -/
def allocEntries : List HNode → List (String × Value) → List HNode × List (String × Nat)
  | h, [] => (h, [])
  | h, (k, v) :: rest =>
      let r1 := allocV h v
      let r2 := allocEntries r1.1 rest
      (r2.1, (k, r1.2) :: r2.2)

/-- Deep copy of the items of a list, left to right. -/
def allocItems : List HNode → List Value → List HNode × List Nat
  | h, [] => (h, [])
  | h, v :: rest =>
      let r1 := allocV h v
      let r2 := allocItems r1.1 rest
      (r2.1, r1.2 :: r2.2)

end

/-- Sequence a list of optional values: some of the list when every
element is some, none otherwise. -/
def seqOpt : List (Option Value) → Option (List Value)
  | [] => some []
  | o :: rest =>
      match o, seqOpt rest with
      | some v, some vs => some (v :: vs)
      | _, _ => none

/-- Sequence keyed optional values, keeping the keys. -/
def seqOptE : List (String × Option Value) → Option (List (String × Value))
  | [] => some []
  | (k, o) :: rest =>
      match o, seqOptE rest with
      | some v, some vs => some ((k, v) :: vs)
      | _, _ => none

/-- Read back the value stored at an address, with fuel bounding the
depth (Python object graphs may be cyclic in general). -/
def resolveN : Nat → List HNode → Nat → Option Value
  | 0, _, _ => none
  | fuel + 1, h, a =>
      match heapGet h a with
      | some (.hscalar v) => some v
      | some (.hdict entries) =>
          (seqOptE (entries.map (fun kv => (kv.1, resolveN fuel h kv.2)))).map .vdict
      | some (.hlist items) =>
          (seqOpt (items.map (fun a2 => resolveN fuel h a2))).map .vlist
      | none => none

/-- Every node of the heap living at or above the watermark w refers only
to addresses at or above w: reading such a node never depends on the
region below w. -/
def GoodFrom (h : List HNode) (w : Nat) : Prop :=
  ∀ i nd, heapGet h i = some nd → w ≤ i → ∀ c ∈ nodeChildren nd, w ≤ c

/-!
Basic lemmas about the dictionary operations and Python equality.
-/

theorem lookupV_setV_self (e : List (String × Value)) (k : String) (v : Value) :
    lookupV (setV e k v) k = some v := by
  induction e with
  | nil => simp [setV, lookupV]
  | cons kv rest ih =>
      obtain ⟨k1, v1⟩ := kv
      by_cases hk : k1 = k
      · subst hk; simp [setV, lookupV]
      · simp [setV, lookupV, hk, ih]

theorem lookupV_setV_ne (e : List (String × Value)) (k k2 : String) (v : Value)
    (hne : k2 ≠ k) : lookupV (setV e k v) k2 = lookupV e k2 := by
  have hne2 : ¬ (k = k2) := fun h => hne h.symm
  induction e with
  | nil => simp [setV, lookupV, hne2]
  | cons kv rest ih =>
      obtain ⟨k1, v1⟩ := kv
      by_cases hk : k1 = k
      · subst hk
        simp [setV, lookupV, hne2]
      · by_cases hk2 : k1 = k2
        · subst hk2
          simp [setV, lookupV, hk]
        · simp [setV, lookupV, hk, hk2, ih]

theorem setV_setV (e : List (String × Value)) (k : String) (x y : Value) :
    setV (setV e k x) k y = setV e k y := by
  induction e with
  | nil => simp [setV]
  | cons kv rest ih =>
      obtain ⟨k1, v1⟩ := kv
      by_cases hk : k1 = k
      · subst hk; simp [setV]
      · simp [setV, hk, ih]

theorem setV_lookup_same (e : List (String × Value)) (k : String) (v : Value)
    (h : lookupV e k = some v) : setV e k v = e := by
  induction e with
  | nil => simp [lookupV] at h
  | cons kv rest ih =>
      obtain ⟨k1, v1⟩ := kv
      by_cases hk : k1 = k
      · subst hk
        simp [lookupV] at h
        simp [setV, h]
      · simp [lookupV, hk] at h
        simp [setV, hk, ih h]

theorem lookupV_popV_ne (e : List (String × Value)) (k k2 : String)
    (hne : k2 ≠ k) : lookupV (popV e k) k2 = lookupV e k2 := by
  have hne2 : ¬ (k = k2) := fun h => hne h.symm
  induction e with
  | nil => simp [popV]
  | cons kv rest ih =>
      obtain ⟨k1, v1⟩ := kv
      by_cases hk : k1 = k
      · subst hk
        simp [popV, lookupV, hne2]
      · by_cases hk2 : k1 = k2
        · subst hk2
          simp [popV, lookupV, hk]
        · simp [popV, lookupV, hk, hk2, ih]

mutual

/-- Python equality is reflexive on values. -/
theorem beqV_refl : ∀ a : Value, beqV a a = true
  | .vnone => rfl
  | .vbool b => by simp [beqV]
  | .vint n => by simp [beqV]
  | .vstr s => by simp [beqV]
  | .vlist l => by rw [show beqV (.vlist l) (.vlist l) = beqLV l l from rfl]; exact beqLV_refl l
  | .vdict e => by rw [show beqV (.vdict e) (.vdict e) = beqEV e e from rfl]; exact beqEV_refl e

/-- Python equality is reflexive on lists of values. -/
theorem beqLV_refl : ∀ l : List Value, beqLV l l = true
  | [] => rfl
  | a :: as => by
      rw [show beqLV (a :: as) (a :: as) = (beqV a a && beqLV as as) from rfl,
        beqV_refl a, beqLV_refl as]
      rfl

/-- Python equality is reflexive on dictionary entry lists. -/
theorem beqEV_refl : ∀ l : List (String × Value), beqEV l l = true
  | [] => rfl
  | (k, v) :: rest => by
      rw [show beqEV ((k, v) :: rest) ((k, v) :: rest)
            = (k == k && beqV v v && beqEV rest rest) from rfl,
        beqV_refl v, beqEV_refl rest]
      simp

end

theorem optBeqV_refl (o : Option Value) : optBeqV o o = true := by
  cases o with
  | none => rfl
  | some v => simpa [optBeqV] using beqV_refl v

/-- Values with unequal Python equality tests are unequal. -/
theorem ne_of_beqV_false {a b : Value} (h : beqV a b = false) : a ≠ b := by
  intro hab
  subst hab
  rw [beqV_refl a] at h
  cases h

/-!
Structural lemmas about the two recursive walks: every run either leaves
the data untouched and emits nothing (possibly raising), or descends
through existing dictionaries and performs exactly one write or one
deletion at the full declared path, emitting exactly one operation.
-/

/-- The snapshot mutation performed by a successful replace walk: descend
through existing dictionary entries along the path and assign the new
value at the final key. -/
inductive WriteAt : Value → List String → Value → Value → Prop
  | last (entries : List (String × Value)) (k : String) (v : Value) :
      WriteAt (.vdict entries) [k] v (.vdict (setV entries k v))
  | step (entries : List (String × Value)) (k k2 : String) (rest : List String)
      (v sub d2 : Value) :
      lookupV entries k = some sub → WriteAt sub (k2 :: rest) v d2 →
      WriteAt (.vdict entries) (k :: k2 :: rest) v (.vdict (setV entries k d2))

/-- The snapshot mutation performed by a successful remove walk: descend
through existing dictionary entries along the path and pop the final
key. -/
inductive DelAt : Value → List String → Value → Prop
  | last (entries : List (String × Value)) (k : String) :
      (lookupV entries k).isSome = true →
      DelAt (.vdict entries) [k] (.vdict (popV entries k))
  | step (entries : List (String × Value)) (k k2 : String) (rest : List String)
      (sub d2 : Value) :
      lookupV entries k = some sub → DelAt sub (k2 :: rest) d2 →
      DelAt (.vdict entries) (k :: k2 :: rest) (.vdict (setV entries k d2))

/-- Every replace walk either is a no-op on the data with no emitted
operation (with or without an exception), or performs one write at the
declared path and emits exactly the one matching replace operation. -/
theorem rr_cases : ∀ (p : List String) (d : Value) (path : String) (v : Value),
    (∃ e0, recursive_replace d path p v = (d, [], e0))
    ∨ (∃ d2, recursive_replace d path p v = (d2, [.replace (joinPath path p) v], none)
        ∧ WriteAt d p v d2) := by
  intro p
  induction p with
  | nil => intro d path v; exact .inl ⟨some .indexError, rfl⟩
  | cons k tail ih =>
      intro d path v
      cases tail with
      | nil =>
          by_cases hn : v.isNone = true
          · exact .inl ⟨none, by simp [recursive_replace, hn]⟩
          · cases d with
            | vdict e =>
                by_cases hb : optBeqV (lookupV e k) (some v) = true
                · exact .inl ⟨none, by simp [recursive_replace, hn, hb]⟩
                · refine .inr ⟨.vdict (setV e k v), ?_, WriteAt.last e k v⟩
                  simp [recursive_replace, hn, hb, joinPath]
            | vnone => exact .inl ⟨some .attributeError, by simp [recursive_replace, hn]⟩
            | vbool b => exact .inl ⟨some .attributeError, by simp [recursive_replace, hn]⟩
            | vint n => exact .inl ⟨some .attributeError, by simp [recursive_replace, hn]⟩
            | vstr s => exact .inl ⟨some .attributeError, by simp [recursive_replace, hn]⟩
            | vlist l => exact .inl ⟨some .attributeError, by simp [recursive_replace, hn]⟩
      | cons k2 rest2 =>
          cases d with
          | vdict e =>
              cases hl : lookupV e k with
              | some sub =>
                  rcases ih sub (path ++ "/" ++ k) v with ⟨e0, heq⟩ | ⟨d2, heq, hw⟩
                  · refine .inl ⟨e0, ?_⟩
                    simp only [recursive_replace, hl, heq, setV_lookup_same e k sub hl]
                  · refine .inr ⟨.vdict (setV e k d2), ?_, WriteAt.step e k k2 rest2 v sub d2 hl hw⟩
                    simp only [recursive_replace, hl, heq, joinPath]
              | none => exact .inl ⟨none, by simp [recursive_replace, hl]⟩
          | vnone => exact .inl ⟨some (.typeError "argument is not iterable"), by simp [recursive_replace]⟩
          | vbool b => exact .inl ⟨some (.typeError "argument is not iterable"), by simp [recursive_replace]⟩
          | vint n => exact .inl ⟨some (.typeError "argument is not iterable"), by simp [recursive_replace]⟩
          | vstr s =>
              by_cases hs : subListB k.data s.data = true
              · exact .inl ⟨some (.typeError "string indices must be integers"), by simp [recursive_replace, hs]⟩
              · exact .inl ⟨none, by simp [recursive_replace, hs]⟩
          | vlist l =>
              by_cases hs : l.contains (.vstr k) = true
              · exact .inl ⟨some (.typeError "list indices must be integers"), by simp [recursive_replace, hs]⟩
              · exact .inl ⟨none, by simp [recursive_replace, hs]⟩

/-- Every remove walk either is a no-op on the data with no emitted
operation (with or without an exception), or pops the final key of the
declared path and emits exactly the one matching remove operation. -/
theorem rd_cases : ∀ (p : List String) (d : Value) (path : String),
    (∃ e0, recursive_delete d path p = (d, [], e0))
    ∨ (∃ d2, recursive_delete d path p = (d2, [.remove (joinPath path p)], none)
        ∧ DelAt d p d2) := by
  intro p
  induction p with
  | nil => intro d path; exact .inl ⟨some .indexError, rfl⟩
  | cons k tail ih =>
      intro d path
      cases tail with
      | nil =>
          cases d with
          | vdict e =>
              by_cases hb : (lookupV e k).isSome = true
              · refine .inr ⟨.vdict (popV e k), ?_, DelAt.last e k hb⟩
                simp [recursive_delete, hb, joinPath]
              · exact .inl ⟨none, by simp [recursive_delete, hb]⟩
          | vnone => exact .inl ⟨some (.typeError "argument is not iterable"), by simp [recursive_delete]⟩
          | vbool b => exact .inl ⟨some (.typeError "argument is not iterable"), by simp [recursive_delete]⟩
          | vint n => exact .inl ⟨some (.typeError "argument is not iterable"), by simp [recursive_delete]⟩
          | vstr s =>
              by_cases hs : subListB k.data s.data = true
              · exact .inl ⟨some .attributeError, by simp [recursive_delete, hs]⟩
              · exact .inl ⟨none, by simp [recursive_delete, hs]⟩
          | vlist l =>
              by_cases hs : l.contains (.vstr k) = true
              · exact .inl ⟨some (.typeError "pop expected an int"), by simp [recursive_delete, hs]⟩
              · exact .inl ⟨none, by simp [recursive_delete, hs]⟩
      | cons k2 rest2 =>
          cases d with
          | vdict e =>
              cases hl : lookupV e k with
              | some sub =>
                  rcases ih sub (path ++ "/" ++ k) with ⟨e0, heq⟩ | ⟨d2, heq, hw⟩
                  · refine .inl ⟨e0, ?_⟩
                    simp only [recursive_delete, hl, heq, setV_lookup_same e k sub hl]
                  · refine .inr ⟨.vdict (setV e k d2), ?_, DelAt.step e k k2 rest2 sub d2 hl hw⟩
                    simp only [recursive_delete, hl, heq, joinPath]
              | none => exact .inl ⟨none, by simp [recursive_delete, hl]⟩
          | vnone => exact .inl ⟨some (.typeError "argument is not iterable"), by simp [recursive_delete]⟩
          | vbool b => exact .inl ⟨some (.typeError "argument is not iterable"), by simp [recursive_delete]⟩
          | vint n => exact .inl ⟨some (.typeError "argument is not iterable"), by simp [recursive_delete]⟩
          | vstr s =>
              by_cases hs : subListB k.data s.data = true
              · exact .inl ⟨some (.typeError "string indices must be integers"), by simp [recursive_delete, hs]⟩
              · exact .inl ⟨none, by simp [recursive_delete, hs]⟩
          | vlist l =>
              by_cases hs : l.contains (.vstr k) = true
              · exact .inl ⟨some (.typeError "list indices must be integers"), by simp [recursive_delete, hs]⟩
              · exact .inl ⟨none, by simp [recursive_delete, hs]⟩

/-- A write along a path leaves the value at every incomparable path
unchanged. -/
theorem WriteAt_frame {d : Value} {p : List String} {v d2 : Value} (hw : WriteAt d p v d2) :
    ∀ q, ¬ p <+: q → ¬ q <+: p → getPath d2 q = getPath d q := by
  induction hw with
  | last e k v0 =>
      intro q hpq hqp
      cases q with
      | nil => exact absurd List.nil_prefix hqp
      | cons kq qrest =>
          by_cases hk : kq = k
          · subst hk
            exact absurd (by simp [List.cons_prefix_cons, List.nil_prefix]) hpq
          · simp [getPath, lookupV_setV_ne e k kq v0 hk]
  | step e k k2 rest v0 sub d3 hl hw2 ih =>
      intro q hpq hqp
      cases q with
      | nil => exact absurd List.nil_prefix hqp
      | cons kq qrest =>
          by_cases hk : kq = k
          · subst hk
            have h1 : ¬ (k2 :: rest) <+: qrest := fun hh => hpq (by simp [List.cons_prefix_cons, hh])
            have h2 : ¬ qrest <+: (k2 :: rest) := fun hh => hqp (by simp [List.cons_prefix_cons, hh])
            simp [getPath, lookupV_setV_self, hl, ih qrest h1 h2]
          · simp [getPath, lookupV_setV_ne e k kq d3 hk]

/-- A deletion along a path leaves the value at every incomparable path
unchanged. -/
theorem DelAt_frame {d : Value} {p : List String} {d2 : Value} (hw : DelAt d p d2) :
    ∀ q, ¬ p <+: q → ¬ q <+: p → getPath d2 q = getPath d q := by
  induction hw with
  | last e k hsome =>
      intro q hpq hqp
      cases q with
      | nil => exact absurd List.nil_prefix hqp
      | cons kq qrest =>
          by_cases hk : kq = k
          · subst hk
            exact absurd (by simp [List.cons_prefix_cons, List.nil_prefix]) hpq
          · simp [getPath, lookupV_popV_ne e k kq hk]
  | step e k k2 rest sub d3 hl hw2 ih =>
      intro q hpq hqp
      cases q with
      | nil => exact absurd List.nil_prefix hqp
      | cons kq qrest =>
          by_cases hk : kq = k
          · subst hk
            have h1 : ¬ (k2 :: rest) <+: qrest := fun hh => hpq (by simp [List.cons_prefix_cons, hh])
            have h2 : ¬ qrest <+: (k2 :: rest) := fun hh => hqp (by simp [List.cons_prefix_cons, hh])
            simp [getPath, lookupV_setV_self, hl, ih qrest h1 h2]
          · simp [getPath, lookupV_setV_ne e k kq d3 hk]

/-- A raising replace walk leaves the data untouched and emits nothing. -/
theorem rr_err_eq {p : List String} {d : Value} {path : String} {v : Value} {e : PyErr}
    (h : (recursive_replace d path p v).2.2 = some e) :
    recursive_replace d path p v = (d, [], some e) := by
  rcases rr_cases p d path v with ⟨e0, heq⟩ | ⟨d2, heq, hw⟩
  · rw [heq] at h ⊢
    simp only at h
    rw [h]
  · rw [heq] at h
    simp at h

/-- A raising remove walk leaves the data untouched and emits nothing. -/
theorem rd_err_eq {p : List String} {d : Value} {path : String} {e : PyErr}
    (h : (recursive_delete d path p).2.2 = some e) :
    recursive_delete d path p = (d, [], some e) := by
  rcases rd_cases p d path with ⟨e0, heq⟩ | ⟨d2, heq, hw⟩
  · rw [heq] at h ⊢
    simp only at h
    rw [h]
  · rw [heq] at h
    simp at h

/-- A replace walk that emits no operation leaves the data untouched. -/
theorem rr_ops_nil {p : List String} {d : Value} {path : String} {v : Value}
    (h : (recursive_replace d path p v).2.1 = []) :
    recursive_replace d path p v = (d, [], (recursive_replace d path p v).2.2) := by
  rcases rr_cases p d path v with ⟨e0, heq⟩ | ⟨d2, heq, hw⟩
  · rw [heq]
  · rw [heq] at h
    simp at h

/-- Running the replace walk again for the same path and value on the
data it produced is a no-op with the same outcome. -/
theorem rr_after_write {d : Value} {p : List String} {v d2 : Value} (hw : WriteAt d p v d2)
    (path : String) : recursive_replace d2 path p v = (d2, [], none) := by
  induction hw generalizing path with
  | last e k v0 =>
      by_cases hn : v0.isNone = true
      · simp [recursive_replace, hn]
      · simp [recursive_replace, hn, lookupV_setV_self, optBeqV, beqV_refl]
  | step e k k2 rest v0 sub d3 hl hw2 ih =>
      simp [recursive_replace, lookupV_setV_self, ih (path ++ "/" ++ k), setV_setV]

/-- A raising or suppressed replace walk stays raising or suppressed,
with the same outcome, after a write along an incomparable path. -/
theorem rr_transfer {d : Value} {q : List String} {u d2 : Value} (hw : WriteAt d q u d2) :
    ∀ (p : List String) (path : String) (v : Value), ¬ q <+: p → ¬ p <+: q →
    (recursive_replace d2 path p v).2 = (recursive_replace d path p v).2 := by
  induction hw with
  | last e k u0 =>
      intro p path v hqp hpq
      cases p with
      | nil => rfl
      | cons kp tailp =>
          cases tailp with
          | nil =>
              by_cases hn : v.isNone = true
              · simp [recursive_replace, hn]
              · by_cases hk : kp = k
                · subst hk; exact absurd List.prefix_rfl hqp
                · have hlk := lookupV_setV_ne e k kp u0 hk
                  by_cases hb : optBeqV (lookupV e kp) (some v) = true <;>
                    simp [recursive_replace, hn, hlk, hb]
          | cons kp2 tailp2 =>
              by_cases hk : kp = k
              · subst hk
                exact absurd (by simp [List.cons_prefix_cons, List.nil_prefix]) hqp
              · cases hl2 : lookupV e kp with
                | some sub2 => simp [recursive_replace, lookupV_setV_ne e k kp u0 hk, hl2]
                | none => simp [recursive_replace, lookupV_setV_ne e k kp u0 hk, hl2]
  | step e k k2 rest u0 sub d3 hl hw2 ih =>
      intro p path v hqp hpq
      cases p with
      | nil => rfl
      | cons kp tailp =>
          cases tailp with
          | nil =>
              by_cases hn : v.isNone = true
              · simp [recursive_replace, hn]
              · by_cases hk : kp = k
                · subst hk
                  exact absurd (by simp [List.cons_prefix_cons, List.nil_prefix]) hpq
                · have hlk := lookupV_setV_ne e k kp d3 hk
                  by_cases hb : optBeqV (lookupV e kp) (some v) = true <;>
                    simp [recursive_replace, hn, hlk, hb]
          | cons kp2 tailp2 =>
              by_cases hk : kp = k
              · subst hk
                have h1 : ¬ (k2 :: rest) <+: (kp2 :: tailp2) :=
                  fun hh => hqp (by simp [List.cons_prefix_cons, hh])
                have h2 : ¬ (kp2 :: tailp2) <+: (k2 :: rest) :=
                  fun hh => hpq (by simp [List.cons_prefix_cons, hh])
                simp [recursive_replace, lookupV_setV_self, hl, ih _ _ v h1 h2]
              · cases hl2 : lookupV e kp with
                | some sub2 => simp [recursive_replace, lookupV_setV_ne e k kp d3 hk, hl2]
                | none => simp [recursive_replace, lookupV_setV_ne e k kp d3 hk, hl2]

/-- A no-op (or raising) replace walk keeps the same outcome after a
whole replace loop over entries with incomparable paths has run. -/
theorem stable_after_loop (path : String) :
    ∀ (rest : List (PKey × Value)) (d : Value) (p : List String) (v : Value) (e0 : Option PyErr),
    (∀ en ∈ rest, PathIncomp p en.1.toPath) →
    recursive_replace d path p v = (d, [], e0) →
    recursive_replace (replaceLoop d path rest).1 path p v
      = ((replaceLoop d path rest).1, [], e0) := by
  intro rest
  induction rest with
  | nil =>
      intro d p v e0 hinc hstab
      simpa [replaceLoop] using hstab
  | cons en rest2 ih =>
      intro d p v e0 hinc hstab
      obtain ⟨k2, v2⟩ := en
      have hinc2 : ∀ en2 ∈ rest2, PathIncomp p en2.1.toPath :=
        fun en2 hmem => hinc en2 (List.mem_cons_of_mem _ hmem)
      have hinck2 : PathIncomp p (PKey.toPath k2) := hinc (k2, v2) (List.mem_cons_self _ _)
      cases hr : (recursive_replace d path k2.toPath v2).2.2 with
      | some e2 =>
          have heq := rr_err_eq hr
          simp only [replaceLoop, heq]
          simpa using hstab
      | none =>
          rcases rr_cases k2.toPath d path v2 with ⟨e1, heq⟩ | ⟨d2, heq, hw⟩
          · have he1 : e1 = none := by
              rw [heq] at hr
              simpa using hr
            subst he1
            simp only [replaceLoop, heq]
            simpa using ih d p v e0 hinc2 hstab
          · have ht := rr_transfer hw p path v hinck2.2 hinck2.1
            rw [hstab] at ht
            have hops : (recursive_replace d2 path p v).2.1 = [] := by rw [ht]
            have h22 : (recursive_replace d2 path p v).2.2 = e0 := by rw [ht]
            have hstab2 : recursive_replace d2 path p v = (d2, [], e0) := by
              rw [rr_ops_nil hops, h22]
            simp only [replaceLoop, heq]
            simpa using ih d2 p v e0 hinc2 hstab2

/-- Running the replace loop a second time, over entries with pairwise
incomparable paths, on the data the first run produced, emits no
operation, changes nothing and raises the same exception. -/
theorem replaceLoop_self (path : String) :
    ∀ (res : List (PKey × Value)) (d : Value),
    res.Pairwise (fun a b => PathIncomp a.1.toPath b.1.toPath) →
    replaceLoop (replaceLoop d path res).1 path res
      = ((replaceLoop d path res).1, [], (replaceLoop d path res).2.2) := by
  intro res
  induction res with
  | nil => intro d hp; simp [replaceLoop]
  | cons en rest ih =>
      intro d hp
      obtain ⟨k1, v1⟩ := en
      have hpair : ∀ e2 ∈ rest, PathIncomp k1.toPath e2.1.toPath :=
        (List.pairwise_cons.mp hp).1
      have hrest := (List.pairwise_cons.mp hp).2
      cases hr : (recursive_replace d path k1.toPath v1).2.2 with
      | some e2 =>
          have heq := rr_err_eq hr
          simp [replaceLoop, heq]
      | none =>
          rcases rr_cases k1.toPath d path v1 with ⟨e1, heq⟩ | ⟨d2, heq, hw⟩
          · have he1 : e1 = none := by
              rw [heq] at hr
              simpa using hr
            subst he1
            have hstab := stable_after_loop path rest d k1.toPath v1 none hpair heq
            simp only [replaceLoop, heq]
            simp only [replaceLoop] at hstab ⊢
            rw [hstab]
            simpa using ih d hrest
          · have hself0 := rr_after_write hw path
            have hstab := stable_after_loop path rest d2 k1.toPath v1 none hpair hself0
            simp only [replaceLoop, heq]
            simp only [replaceLoop] at hstab ⊢
            rw [hstab]
            simpa using ih d2 hrest

/-!
Ordering of emitted operations: each loop contributes, entry by entry in
declaration order, either nothing or the one operation of that entry.
-/

/-- The operations contributed by a replace loop, decomposed entry by
entry in declaration order: each entry contributes nothing or exactly its
own replace operation at its own declared path. -/
inductive RepChunks (path : String) : List (PKey × Value) → List Op → Prop
  | nil : RepChunks path [] []
  | skip {k : PKey} {v : Value} {rest : List (PKey × Value)} {ops : List Op} :
      RepChunks path rest ops → RepChunks path ((k, v) :: rest) ops
  | emit {k : PKey} {v : Value} {rest : List (PKey × Value)} {ops : List Op} :
      RepChunks path rest ops →
      RepChunks path ((k, v) :: rest) (.replace (joinPath path k.toPath) v :: ops)

/-- The operations contributed by a remove loop, decomposed entry by
entry in declaration order. -/
inductive RemChunks (path : String) : List PKey → List Op → Prop
  | nil : RemChunks path [] []
  | skip {k : PKey} {rest : List PKey} {ops : List Op} :
      RemChunks path rest ops → RemChunks path (k :: rest) ops
  | emit {k : PKey} {rest : List PKey} {ops : List Op} :
      RemChunks path rest ops →
      RemChunks path (k :: rest) (.remove (joinPath path k.toPath) :: ops)

theorem RepChunks_nil_ops (path : String) : ∀ res, RepChunks path res [] := by
  intro res
  induction res with
  | nil => exact .nil
  | cons en rest ih => exact .skip ih

theorem RemChunks_nil_ops (path : String) : ∀ rms, RemChunks path rms [] := by
  intro rms
  induction rms with
  | nil => exact .nil
  | cons k rest ih => exact .skip ih

/-- Every operation of a replace-loop decomposition is a replace. -/
theorem RepChunks_all_replace {path : String} {res : List (PKey × Value)} {ops : List Op}
    (h : RepChunks path res ops) : ∀ o ∈ ops, ∃ s w, o = .replace s w := by
  induction h with
  | nil => intro o ho; cases ho
  | skip h2 ih => exact ih
  | emit h2 ih =>
      intro o ho
      cases ho with
      | head => exact ⟨_, _, rfl⟩
      | tail _ hmem => exact ih o hmem

/-- Every operation of a remove-loop decomposition is a remove. -/
theorem RemChunks_all_remove {path : String} {rms : List PKey} {ops : List Op}
    (h : RemChunks path rms ops) : ∀ o ∈ ops, ∃ s, o = .remove s := by
  induction h with
  | nil => intro o ho; cases ho
  | skip h2 ih => exact ih
  | emit h2 ih =>
      intro o ho
      cases ho with
      | head => exact ⟨_, rfl⟩
      | tail _ hmem => exact ih o hmem

/-- The replace loop emits a chunked operation list. -/
theorem replaceLoop_chunks (path : String) :
    ∀ (res : List (PKey × Value)) (d : Value),
    RepChunks path res (replaceLoop d path res).2.1 := by
  intro res
  induction res with
  | nil => intro d; exact .nil
  | cons en rest ih =>
      intro d
      obtain ⟨k1, v1⟩ := en
      cases hr : (recursive_replace d path k1.toPath v1).2.2 with
      | some e =>
          have heq := rr_err_eq hr
          simp only [replaceLoop, heq]
          exact RepChunks_nil_ops path _
      | none =>
          rcases rr_cases k1.toPath d path v1 with ⟨e1, heq⟩ | ⟨d2, heq, hw⟩
          · have he1 : e1 = none := by
              rw [heq] at hr
              simpa using hr
            subst he1
            simp only [replaceLoop, heq]
            simpa using RepChunks.skip (ih d)
          · simp only [replaceLoop, heq]
            simpa using RepChunks.emit (ih d2)

/-- The remove loop emits a chunked operation list. -/
theorem removeLoop_chunks (path : String) :
    ∀ (rms : List PKey) (d : Value),
    RemChunks path rms (removeLoop d path rms).2.1 := by
  intro rms
  induction rms with
  | nil => intro d; exact .nil
  | cons k1 rest ih =>
      intro d
      cases hr : (recursive_delete d path k1.toPath).2.2 with
      | some e =>
          have heq := rd_err_eq hr
          simp only [removeLoop, heq]
          exact RemChunks_nil_ops path _
      | none =>
          rcases rd_cases k1.toPath d path with ⟨e1, heq⟩ | ⟨d2, heq, hw⟩
          · have he1 : e1 = none := by
              rw [heq] at hr
              simpa using hr
            subst he1
            simp only [removeLoop, heq]
            simpa using RemChunks.skip (ih d)
          · simp only [removeLoop, heq]
            simpa using RemChunks.emit (ih d2)

/-- The replace loop leaves the value at a path incomparable to every
declared path unchanged. -/
theorem replaceLoop_frame (path : String) :
    ∀ (res : List (PKey × Value)) (d : Value) (q : List String),
    (∀ en ∈ res, PathIncomp q en.1.toPath) →
    getPath (replaceLoop d path res).1 q = getPath d q := by
  intro res
  induction res with
  | nil => intro d q hinc; rfl
  | cons en rest ih =>
      intro d q hinc
      obtain ⟨k1, v1⟩ := en
      have hinc2 : ∀ en2 ∈ rest, PathIncomp q en2.1.toPath :=
        fun en2 hmem => hinc en2 (List.mem_cons_of_mem _ hmem)
      have hinck : PathIncomp q (PKey.toPath k1) := hinc (k1, v1) (List.mem_cons_self _ _)
      cases hr : (recursive_replace d path k1.toPath v1).2.2 with
      | some e =>
          have heq := rr_err_eq hr
          simp only [replaceLoop, heq]
      | none =>
          rcases rr_cases k1.toPath d path v1 with ⟨e1, heq⟩ | ⟨d2, heq, hw⟩
          · have he1 : e1 = none := by
              rw [heq] at hr
              simpa using hr
            subst he1
            simp only [replaceLoop, heq]
            simpa using ih d q hinc2
          · simp only [replaceLoop, heq]
            have hframe := WriteAt_frame hw q hinck.2 hinck.1
            simpa [hframe] using ih d2 q hinc2

/-- The remove loop leaves the value at a path incomparable to every
declared path unchanged. -/
theorem removeLoop_frame (path : String) :
    ∀ (rms : List PKey) (d : Value) (q : List String),
    (∀ k ∈ rms, PathIncomp q k.toPath) →
    getPath (removeLoop d path rms).1 q = getPath d q := by
  intro rms
  induction rms with
  | nil => intro d q hinc; rfl
  | cons k1 rest ih =>
      intro d q hinc
      have hinc2 : ∀ k2 ∈ rest, PathIncomp q k2.toPath :=
        fun k2 hmem => hinc k2 (List.mem_cons_of_mem _ hmem)
      have hinck : PathIncomp q (PKey.toPath k1) := hinc k1 (List.mem_cons_self _ _)
      cases hr : (recursive_delete d path k1.toPath).2.2 with
      | some e =>
          have heq := rd_err_eq hr
          simp only [removeLoop, heq]
      | none =>
          rcases rd_cases k1.toPath d path with ⟨e1, heq⟩ | ⟨d2, heq, hw⟩
          · have he1 : e1 = none := by
              rw [heq] at hr
              simpa using hr
            subst he1
            simp only [removeLoop, heq]
            simpa using ih d q hinc2
          · simp only [removeLoop, heq]
            have hframe := DelAt_frame hw q hinck.2 hinck.1
            simpa [hframe] using ih d2 q hinc2

/-!
Missing intermediate path segments: the walk descends through existing
dictionaries and meets a dictionary from which the next, non-final,
segment is absent.
-/

/-- The snapshot is missing a non-final segment of the path: descending
from the root through dictionary entries, some dictionary level lacks the
next key while at least one further segment remains. -/
inductive MissingMid : Value → List String → Prop
  | here (entries : List (String × Value)) (k k2 : String) (rest : List String) :
      lookupV entries k = none → MissingMid (.vdict entries) (k :: k2 :: rest)
  | there (entries : List (String × Value)) (k : String) (tail : List String) (sub : Value) :
      lookupV entries k = some sub → MissingMid sub tail →
      MissingMid (.vdict entries) (k :: tail)

/-- One-step unfolding of the replace walk on a dictionary with at least
two remaining segments. -/
theorem rr_unfold_cons2 (e : List (String × Value)) (k t1 : String) (t2 : List String)
    (path : String) (v : Value) :
    recursive_replace (.vdict e) path (k :: t1 :: t2) v
    = match lookupV e k with
      | some sub =>
          (.vdict (setV e k (recursive_replace sub (path ++ "/" ++ k) (t1 :: t2) v).1),
            (recursive_replace sub (path ++ "/" ++ k) (t1 :: t2) v).2.1,
            (recursive_replace sub (path ++ "/" ++ k) (t1 :: t2) v).2.2)
      | none => (.vdict e, [], none) := rfl

/-- One-step unfolding of the remove walk on a dictionary with at least
two remaining segments. -/
theorem rd_unfold_cons2 (e : List (String × Value)) (k t1 : String) (t2 : List String)
    (path : String) :
    recursive_delete (.vdict e) path (k :: t1 :: t2)
    = match lookupV e k with
      | some sub =>
          (.vdict (setV e k (recursive_delete sub (path ++ "/" ++ k) (t1 :: t2)).1),
            (recursive_delete sub (path ++ "/" ++ k) (t1 :: t2)).2.1,
            (recursive_delete sub (path ++ "/" ++ k) (t1 :: t2)).2.2)
      | none => (.vdict e, [], none) := rfl

/-- A path with a missing intermediate segment makes the replace walk a
silent no-op. -/
theorem mm_replace {d : Value} {p : List String} (hm : MissingMid d p) :
    ∀ (path : String) (v : Value), recursive_replace d path p v = (d, [], none) := by
  induction hm with
  | here entries k k2 rest hl =>
      intro path v
      simp [recursive_replace, hl]
  | there entries k tail sub hl hm2 ih =>
      intro path v
      obtain ⟨t1, t2, rfl⟩ : ∃ t1 t2, tail = t1 :: t2 := by
        cases hm2 with
        | here e2 kk kk2 rr hl2 => exact ⟨_, _, rfl⟩
        | there e2 kk tt ss hl2 hm3 => exact ⟨_, _, rfl⟩
      rw [rr_unfold_cons2, hl]
      simp only [ih, setV_lookup_same entries k _ hl]

/-- A path with a missing intermediate segment makes the remove walk a
silent no-op. -/
theorem mm_delete {d : Value} {p : List String} (hm : MissingMid d p) :
    ∀ (path : String), recursive_delete d path p = (d, [], none) := by
  induction hm with
  | here entries k k2 rest hl =>
      intro path
      simp [recursive_delete, hl]
  | there entries k tail sub hl hm2 ih =>
      intro path
      obtain ⟨t1, t2, rfl⟩ : ∃ t1 t2, tail = t1 :: t2 := by
        cases hm2 with
        | here e2 kk kk2 rr hl2 => exact ⟨_, _, rfl⟩
        | there e2 kk tt ss hl2 hm3 => exact ⟨_, _, rfl⟩
      rw [rd_unfold_cons2, hl]
      simp only [ih, setV_lookup_same entries k _ hl]

/-!
Lemmas about the key-renaming loop.
-/

theorem mapKeysLoop_isSome (input : List (String × Value)) :
    ∀ (km : List (String × String)) (acc : List (String × Value)) (k2 : String),
    (lookupV (mapKeysLoop input km acc) k2).isSome = true
      ↔ ((lookupV acc k2).isSome = true ∨ k2 ∈ km.map Prod.snd) := by
  intro km
  induction km with
  | nil => intro acc k2; simp [mapKeysLoop]
  | cons e0 rest ih =>
      intro acc k2
      obtain ⟨o1, n1⟩ := e0
      by_cases hk : k2 = n1
      · subst hk
        simp [mapKeysLoop, ih, lookupV_setV_self]
      · simp [mapKeysLoop, ih, lookupV_setV_ne acc n1 k2 _ hk, hk]

theorem mapKeysLoop_nomem (input : List (String × Value)) :
    ∀ (km : List (String × String)) (acc : List (String × Value)) (k2 : String),
    k2 ∉ km.map Prod.snd →
    lookupV (mapKeysLoop input km acc) k2 = lookupV acc k2 := by
  intro km
  induction km with
  | nil => intro acc k2 hmem; rfl
  | cons e0 rest ih =>
      intro acc k2 hmem
      obtain ⟨o1, n1⟩ := e0
      have hk : k2 ≠ n1 := by
        intro hh
        exact hmem (by simp [hh])
      have hm2 : k2 ∉ rest.map Prod.snd := by
        intro hh
        exact hmem (by simp [hh])
      rw [show mapKeysLoop input ((o1, n1) :: rest) acc
            = mapKeysLoop input rest (setV acc n1 (pyGet input o1)) from rfl,
        ih _ k2 hm2, lookupV_setV_ne acc n1 k2 _ hk]

theorem mapKeysLoop_value (input : List (String × Value)) :
    ∀ (km : List (String × String)) (acc : List (String × Value)) (old new : String),
    (old, new) ∈ km → (∀ e ∈ km, e.2 = new → e.1 = old) →
    lookupV (mapKeysLoop input km acc) new = some (pyGet input old) := by
  intro km
  induction km with
  | nil => intro acc old new hmem; simp at hmem
  | cons e0 rest ih =>
      intro acc old new hmem huniq
      obtain ⟨o1, n1⟩ := e0
      by_cases hk : new = n1
      · subst hk
        have ho1 : o1 = old := huniq (o1, new) (List.mem_cons_self _ _) rfl
        subst ho1
        by_cases hmem2 : new ∈ rest.map Prod.snd
        · obtain ⟨e2, he2mem, he2⟩ := List.mem_map.mp hmem2
          have he1 : e2.1 = o1 := huniq e2 (List.mem_cons_of_mem _ he2mem) he2
          have he2eq : e2 = (o1, new) := by
            obtain ⟨a, b⟩ := e2
            simp only at he1 he2
            rw [he1, he2]
          have hmem3 : (o1, new) ∈ rest := he2eq ▸ he2mem
          rw [show mapKeysLoop input ((o1, new) :: rest) acc
                = mapKeysLoop input rest (setV acc new (pyGet input o1)) from rfl]
          exact ih _ o1 new hmem3 (fun e3 hm he => huniq e3 (List.mem_cons_of_mem _ hm) he)
        · rw [show mapKeysLoop input ((o1, new) :: rest) acc
                = mapKeysLoop input rest (setV acc new (pyGet input o1)) from rfl,
            mapKeysLoop_nomem input rest _ new hmem2, lookupV_setV_self]
      · have hmem2 : (old, new) ∈ rest := by
          cases hmem with
          | head => exact absurd rfl hk
          | tail _ hmem3 => exact hmem3
        exact ih _ old new hmem2 (fun e2 hm he => huniq e2 (List.mem_cons_of_mem _ hm) he)

/-!
Lemmas about the prefix-merge loop.
-/

theorem lookupPK_append (a b : List (PKey × Value)) (k : PKey) :
    lookupPK (a ++ b) k
      = match lookupPK a k with
        | some v => some v
        | none => lookupPK b k := by
  induction a with
  | nil => rfl
  | cons kv rest ih =>
      obtain ⟨k1, v1⟩ := kv
      by_cases hk : k1 = k <;> simp [lookupPK, hk, ih]

theorem setPK_fresh (main : List (PKey × Value)) (k : PKey) (v : Value)
    (h : lookupPK main k = none) : setPK main k v = main ++ [(k, v)] := by
  induction main with
  | nil => rfl
  | cons kv rest ih =>
      obtain ⟨k1, v1⟩ := kv
      by_cases hk : k1 = k
      · simp [lookupPK, hk] at h
      · simp [lookupPK, hk] at h
        simp [setPK, hk, ih h]

theorem mergeLoop_fresh (pre : List String) :
    ∀ (sub : List (String × Value)) (main : List (PKey × Value)),
    (sub.map Prod.fst).Nodup →
    (∀ k2 ∈ sub.map Prod.fst, lookupPK main (.tup (pre ++ [k2])) = none) →
    mergeLoop pre main sub = main ++ sub.map (fun en => (.tup (pre ++ [en.1]), en.2)) := by
  intro sub
  induction sub with
  | nil => intro main hnd hfresh; simp [mergeLoop]
  | cons en rest ih =>
      intro main hnd hfresh
      obtain ⟨k1, v1⟩ := en
      have hf1 : lookupPK main (.tup (pre ++ [k1])) = none := hfresh k1 (by simp)
      have hnd2 : (k1 :: rest.map Prod.fst).Nodup := by simpa using hnd
      have hk1notin : k1 ∉ rest.map Prod.fst := (List.nodup_cons.mp hnd2).1
      have hrec := ih (main ++ [(.tup (pre ++ [k1]), v1)])
        (by simpa using (List.nodup_cons.mp hnd2).2)
        (by
          intro k2 hk2
          rw [lookupPK_append, hfresh k2 (by simp [hk2])]
          have hne : ¬ (PKey.tup (pre ++ [k1]) = PKey.tup (pre ++ [k2])) := by
            intro heq
            have : k1 = k2 := by
              have h2 := List.append_cancel_left (by simpa using heq : pre ++ [k1] = pre ++ [k2])
              simpa using h2
            exact hk1notin (this ▸ hk2)
          simp [lookupPK, hne])
      rw [show mergeLoop pre main ((k1, v1) :: rest)
            = mergeLoop pre (setPK main (.tup (pre ++ [k1])) v1) rest from rfl,
        setPK_fresh main _ v1 hf1, hrec]
      simp

/-!
Idempotence of the deep prune.
-/

mutual

/-- Pruning a pruned value changes nothing. -/
theorem rnv_fix : ∀ v : Value, remove_none_values (remove_none_values v) = remove_none_values v
  | .vnone => rfl
  | .vbool b => rfl
  | .vint n => rfl
  | .vstr s => rfl
  | .vlist l => by
      by_cases hc : (rnvItems l).isEmpty = true
      · simp [remove_none_values, hc]
      · simp [remove_none_values, hc, rnvItems_fix l]
  | .vdict e => by
      by_cases hc : (rnvEntries e).isEmpty = true
      · simp [remove_none_values, hc]
      · simp [remove_none_values, hc, rnvEntries_fix e]

/-- Pruning pruned dictionary entries changes nothing. -/
theorem rnvEntries_fix : ∀ e : List (String × Value), rnvEntries (rnvEntries e) = rnvEntries e
  | [] => rfl
  | (k, v) :: rest => by
      by_cases hn : v.isNone = true
      · simp [rnvEntries, hn, rnvEntries_fix rest]
      · by_cases hr : (remove_none_values v).isNone = true
        · simp [rnvEntries, hn, hr, rnvEntries_fix rest]
        · simp [rnvEntries, hn, hr, rnv_fix v, rnvEntries_fix rest]

/-- Pruning pruned list items changes nothing. -/
theorem rnvItems_fix : ∀ l : List Value, rnvItems (rnvItems l) = rnvItems l
  | [] => rfl
  | v :: rest => by
      by_cases hn : v.isNone = true
      · simp [rnvItems, hn, rnvItems_fix rest]
      · by_cases hr : (remove_none_values v).isNone = true
        · simp [rnvItems, hn, hr, rnvItems_fix rest]
        · simp [rnvItems, hn, hr, rnv_fix v, rnvItems_fix rest]

end

/-!
Lemmas about the heap model: a deep copy only appends fresh nodes whose
references stay inside the fresh region, and reading a value only depends
on the nodes of that region.
-/

theorem heapGet_ge_none : ∀ (h : List HNode) (i : Nat), h.length ≤ i → heapGet h i = none := by
  intro h
  induction h with
  | nil => intro i hi; rfl
  | cons nd rest ih =>
      intro i hi
      cases i with
      | zero => simp at hi
      | succ j => exact ih j (by simpa using hi)

theorem heapGet_snoc : ∀ (h : List HNode) (nd : HNode) (i : Nat),
    heapGet (h ++ [nd]) i
      = if i < h.length then heapGet h i
        else if i = h.length then some nd else none := by
  intro h
  induction h with
  | nil =>
      intro nd i
      cases i with
      | zero => rfl
      | succ j => cases j <;> simp [heapGet]
  | cons nd0 rest ih =>
      intro nd i
      cases i with
      | zero => simp [heapGet]
      | succ j =>
          rw [show heapGet ((nd0 :: rest) ++ [nd]) (j + 1) = heapGet (rest ++ [nd]) j from rfl,
            ih nd j]
          by_cases h1 : j < rest.length
          · rw [if_pos h1, if_pos (show j + 1 < (nd0 :: rest).length from Nat.succ_lt_succ h1)]
            rfl
          · rw [if_neg h1,
              if_neg (show ¬ (j + 1 < (nd0 :: rest).length) from
                fun hh => h1 (Nat.lt_of_succ_lt_succ hh))]
            by_cases h2 : j = rest.length
            · rw [if_pos h2, if_pos (show j + 1 = (nd0 :: rest).length by simp [h2])]
            · rw [if_neg h2,
                if_neg (show ¬ (j + 1 = (nd0 :: rest).length) by simp [h2])]

theorem heapGet_append_lt : ∀ (h ext : List HNode) (i : Nat), i < h.length →
    heapGet (h ++ ext) i = heapGet h i := by
  intro h
  induction h with
  | nil => intro ext i hi; simp at hi
  | cons nd rest ih =>
      intro ext i hi
      cases i with
      | zero => rfl
      | succ j => exact ih ext j (by simpa using hi)

theorem heapGet_heapSet_ne : ∀ (h : List HNode) (a : Nat) (n : HNode) (j : Nat), j ≠ a →
    heapGet (heapSet h a n) j = heapGet h j := by
  intro h
  induction h with
  | nil => intro a n j hj; rfl
  | cons nd rest ih =>
      intro a n j hj
      cases a with
      | zero =>
          cases j with
          | zero => exact absurd rfl hj
          | succ j2 => rfl
      | succ a2 =>
          cases j with
          | zero => rfl
          | succ j2 => exact ih a2 n j2 (fun hh => hj (by rw [hh]))

mutual

/-- A deep copy extends the heap. -/
theorem allocV_ext : ∀ (h : List HNode) (v : Value), ∃ ext, (allocV h v).1 = h ++ ext
  | h, .vnone => ⟨[.hscalar .vnone], rfl⟩
  | h, .vbool b => ⟨[.hscalar (.vbool b)], rfl⟩
  | h, .vint n => ⟨[.hscalar (.vint n)], rfl⟩
  | h, .vstr s => ⟨[.hscalar (.vstr s)], rfl⟩
  | h, .vlist l => by
      obtain ⟨ext1, he1⟩ := allocItems_ext h l
      exact ⟨ext1 ++ [.hlist (allocItems h l).2], by simp [allocV, he1]⟩
  | h, .vdict e => by
      obtain ⟨ext1, he1⟩ := allocEntries_ext h e
      exact ⟨ext1 ++ [.hdict (allocEntries h e).2], by simp [allocV, he1]⟩

/-- Deep-copying dictionary entries extends the heap. -/
theorem allocEntries_ext : ∀ (h : List HNode) (e : List (String × Value)),
    ∃ ext, (allocEntries h e).1 = h ++ ext
  | h, [] => ⟨[], by simp [allocEntries]⟩
  | h, (k, v) :: rest => by
      obtain ⟨e1, h1⟩ := allocV_ext h v
      obtain ⟨e2, h2⟩ := allocEntries_ext (allocV h v).1 rest
      exact ⟨e1 ++ e2, by
        rw [show (allocEntries h ((k, v) :: rest)).1 = (allocEntries (allocV h v).1 rest).1 from rfl,
          h2, h1, List.append_assoc]⟩

/-- Deep-copying list items extends the heap. -/
theorem allocItems_ext : ∀ (h : List HNode) (l : List Value),
    ∃ ext, (allocItems h l).1 = h ++ ext
  | h, [] => ⟨[], by simp [allocItems]⟩
  | h, v :: rest => by
      obtain ⟨e1, h1⟩ := allocV_ext h v
      obtain ⟨e2, h2⟩ := allocItems_ext (allocV h v).1 rest
      exact ⟨e1 ++ e2, by
        rw [show (allocItems h (v :: rest)).1 = (allocItems (allocV h v).1 rest).1 from rfl,
          h2, h1, List.append_assoc]⟩

end

theorem allocV_len_le (h : List HNode) (v : Value) : h.length ≤ (allocV h v).1.length := by
  obtain ⟨ext, he⟩ := allocV_ext h v
  simp [he]

theorem allocEntries_len_le (h : List HNode) (e : List (String × Value)) :
    h.length ≤ (allocEntries h e).1.length := by
  obtain ⟨ext, he⟩ := allocEntries_ext h e
  simp [he]

theorem allocItems_len_le (h : List HNode) (l : List Value) :
    h.length ≤ (allocItems h l).1.length := by
  obtain ⟨ext, he⟩ := allocItems_ext h l
  simp [he]

/-- The address of a deep copy is fresh: at or above the old length. -/
theorem allocV_root_ge (h : List HNode) (v : Value) : h.length ≤ (allocV h v).2 := by
  cases v with
  | vnone => exact Nat.le_refl _
  | vbool b => exact Nat.le_refl _
  | vint n => exact Nat.le_refl _
  | vstr s => exact Nat.le_refl _
  | vlist l => exact allocItems_len_le h l
  | vdict e => exact allocEntries_len_le h e

theorem allocEntries_addrs_ge : ∀ (e : List (String × Value)) (h : List HNode) (a : Nat),
    a ∈ (allocEntries h e).2.map Prod.snd → h.length ≤ a := by
  intro e
  induction e with
  | nil => intro h a ha; simp [allocEntries] at ha
  | cons kv rest ih =>
      intro h a ha
      obtain ⟨k, v⟩ := kv
      rw [show (allocEntries h ((k, v) :: rest)).2
            = (k, (allocV h v).2) :: (allocEntries (allocV h v).1 rest).2 from rfl] at ha
      simp only [List.map_cons, List.mem_cons] at ha
      cases ha with
      | inl hh => exact hh ▸ allocV_root_ge h v
      | inr hh => exact Nat.le_trans (allocV_len_le h v) (ih (allocV h v).1 a hh)

theorem allocItems_addrs_ge : ∀ (l : List Value) (h : List HNode) (a : Nat),
    a ∈ (allocItems h l).2 → h.length ≤ a := by
  intro l
  induction l with
  | nil => intro h a ha; simp [allocItems] at ha
  | cons v rest ih =>
      intro h a ha
      rw [show (allocItems h (v :: rest)).2
            = (allocV h v).2 :: (allocItems (allocV h v).1 rest).2 from rfl] at ha
      simp only [List.mem_cons] at ha
      cases ha with
      | inl hh => exact hh ▸ allocV_root_ge h v
      | inr hh => exact Nat.le_trans (allocV_len_le h v) (ih (allocV h v).1 a hh)

theorem GoodFrom_snoc {h : List HNode} {w : Nat} {nd : HNode} (hg : GoodFrom h w)
    (hker : ∀ c ∈ nodeChildren nd, w ≤ c) : GoodFrom (h ++ [nd]) w := by
  intro i nd2 hget hge c hc
  rw [heapGet_snoc] at hget
  by_cases h1 : i < h.length
  · rw [if_pos h1] at hget
    exact hg i nd2 hget hge c hc
  · rw [if_neg h1] at hget
    by_cases h2 : i = h.length
    · rw [if_pos h2] at hget
      cases hget
      exact hker c hc
    · rw [if_neg h2] at hget
      cases hget

mutual

/-- A deep copy preserves heap goodness above any watermark below the
current length. -/
theorem allocV_good : ∀ (h : List HNode) (v : Value) (w : Nat), w ≤ h.length →
    GoodFrom h w → GoodFrom (allocV h v).1 w
  | h, .vnone, w, hw, hg => GoodFrom_snoc hg (by intro c hc; simp [nodeChildren] at hc)
  | h, .vbool b, w, hw, hg => GoodFrom_snoc hg (by intro c hc; simp [nodeChildren] at hc)
  | h, .vint n, w, hw, hg => GoodFrom_snoc hg (by intro c hc; simp [nodeChildren] at hc)
  | h, .vstr s, w, hw, hg => GoodFrom_snoc hg (by intro c hc; simp [nodeChildren] at hc)
  | h, .vlist l, w, hw, hg => by
      have hgl := allocItems_good h l w hw hg
      apply GoodFrom_snoc hgl
      intro c hc
      simp only [nodeChildren] at hc
      exact Nat.le_trans hw (allocItems_addrs_ge l h c hc)
  | h, .vdict e, w, hw, hg => by
      have hge := allocEntries_good h e w hw hg
      apply GoodFrom_snoc hge
      intro c hc
      simp only [nodeChildren] at hc
      exact Nat.le_trans hw (allocEntries_addrs_ge e h c hc)

/-- Deep-copying dictionary entries preserves heap goodness. -/
theorem allocEntries_good : ∀ (h : List HNode) (e : List (String × Value)) (w : Nat),
    w ≤ h.length → GoodFrom h w → GoodFrom (allocEntries h e).1 w
  | _, [], _, _, hg => hg
  | h, (_, v) :: rest, w, hw, hg =>
      allocEntries_good (allocV h v).1 rest w
        (Nat.le_trans hw (allocV_len_le h v)) (allocV_good h v w hw hg)

/-- Deep-copying list items preserves heap goodness. -/
theorem allocItems_good : ∀ (h : List HNode) (l : List Value) (w : Nat),
    w ≤ h.length → GoodFrom h w → GoodFrom (allocItems h l).1 w
  | _, [], _, _, hg => hg
  | h, v :: rest, w, hw, hg =>
      allocItems_good (allocV h v).1 rest w
        (Nat.le_trans hw (allocV_len_le h v)) (allocV_good h v w hw hg)

end

/-- A heap is trivially good above its own length. -/
theorem GoodFrom_trivial (h : List HNode) : GoodFrom h h.length := by
  intro i nd hget hge c hc
  rw [heapGet_ge_none h i hge] at hget
  cases hget

/-- Reading a value rooted at or above the watermark of a good heap only
depends on the nodes at or above the watermark. -/
theorem resolveN_frame : ∀ (fuel : Nat) (h1 h2 : List HNode) (w : Nat),
    GoodFrom h1 w → (∀ j, w ≤ j → heapGet h2 j = heapGet h1 j) →
    ∀ a, w ≤ a → resolveN fuel h2 a = resolveN fuel h1 a := by
  intro fuel
  induction fuel with
  | zero => intro h1 h2 w hg hagree a ha; rfl
  | succ fuel ih =>
      intro h1 h2 w hg hagree a ha
      simp only [resolveN]
      rw [hagree a ha]
      cases hget : heapGet h1 a with
      | none => rfl
      | some nd =>
          cases nd with
          | hscalar v => rfl
          | hdict entries =>
              have hch : ∀ c ∈ nodeChildren (.hdict entries), w ≤ c := hg a _ hget ha
              have hmap : entries.map (fun kv => (kv.1, resolveN fuel h2 kv.2))
                  = entries.map (fun kv => (kv.1, resolveN fuel h1 kv.2)) := by
                apply List.map_congr_left
                intro kv hkv
                have hc : w ≤ kv.2 :=
                  hch kv.2 (by simpa [nodeChildren] using List.mem_map_of_mem Prod.snd hkv)
                rw [ih h1 h2 w hg hagree kv.2 hc]
              simp only [hmap]
          | hlist items =>
              have hch : ∀ c ∈ nodeChildren (.hlist items), w ≤ c := hg a _ hget ha
              have hmap : items.map (fun a2 => resolveN fuel h2 a2)
                  = items.map (fun a2 => resolveN fuel h1 a2) := by
                apply List.map_congr_left
                intro a2 ha2
                have hc : w ≤ a2 := hch a2 (by simpa [nodeChildren] using ha2)
                rw [ih h1 h2 w hg hagree a2 hc]
              simp only [hmap]

/-!
The specification claims.
-/

/-- C1: for the snapshot with name a and a bfdPol sub-object, replace set
sending the path (name) to b, remove set removing the path (bfdPol), and
base path /x/0, append_update_ops_data appends exactly the replace
operation at /x/0/name with value b followed by the remove operation at
/x/0/bfdPol, and leaves the snapshot equal to the dictionary with the
single entry name = b. -/
theorem claim1_concrete_example :
    append_update_ops_data []
      (.vdict [("name", .vstr "a"),
        ("bfdPol", .vdict [("adminState", .vstr "enabled"), ("detectionMultiplier", .vint 3)])])
      "/x/0" (.dict [(.tup ["name"], .vstr "b")]) (.list [.tup ["bfdPol"]])
    = ⟨[.replace "/x/0/name" (.vstr "b"), .remove "/x/0/bfdPol"],
       .vdict [("name", .vstr "b")], none⟩ := rfl

/-- C2 counterexample: with a well-formed replace set and a truthy
non-list remove set, the call raises TypeError but only after the replace
walk has already mutated the snapshot and emitted an operation, so the
error does not abort the call before any mutation. -/
theorem claim2_counterexample :
    append_update_ops_data [] (.vdict [("name", .vstr "a")]) "/x/0"
        (.dict [(.bare "name", .vstr "b")]) (.nonlist true)
      = ⟨[.replace "/x/0/name" (.vstr "b")], .vdict [("name", .vstr "b")],
         some (.typeError "remove_data must be a list of string or tuples")⟩
    ∧ (Value.vdict [("name", .vstr "b")] ≠ .vdict [("name", .vstr "a")]) :=
  ⟨rfl, ne_of_beqV_false rfl⟩

/-- C2 amended: a truthy non-mapping replace set raises TypeError
synchronously before any mutation; a truthy non-list remove set raises
TypeError before any remove-phase mutation, but only after the replace
phase has run, so when the replace set is a mapping whose walk succeeds,
the replace-phase mutations and emitted operations are kept. Falsy
malformed arguments raise nothing. -/
theorem claim2_amended (ops : List Op) (data : Value) (path : String) :
    (∀ rem : RemoveArg, append_update_ops_data ops data path (.nondict true) rem
        = ⟨ops, data, some (.typeError "replace_data must be a dict")⟩)
    ∧ (∀ rep : ReplaceArg, rep.truthy = false →
        append_update_ops_data ops data path rep (.nonlist true)
        = ⟨ops, data, some (.typeError "remove_data must be a list of string or tuples")⟩)
    ∧ (∀ res : List (PKey × Value), res.isEmpty = false →
        (replaceLoop data path res).2.2 = none →
        append_update_ops_data ops data path (.dict res) (.nonlist true)
        = ⟨ops ++ (replaceLoop data path res).2.1, (replaceLoop data path res).1,
           some (.typeError "remove_data must be a list of string or tuples")⟩) := by
  refine ⟨fun rem => rfl, ?_, ?_⟩
  · intro rep htr
    cases rep with
    | pynone => rfl
    | dict l =>
        have hl : l.isEmpty = true := by
          simpa [ReplaceArg.truthy] using htr
        simp [append_update_ops_data, hl, removePhase]
    | nondict b =>
        have hb : b = false := by simpa [ReplaceArg.truthy] using htr
        subst hb
        rfl
  · intro res hres hloop
    simp [append_update_ops_data, hres, hloop, removePhase]

/-- C2 witness: the amended behavior at concrete inputs. -/
theorem claim2_witness :
    append_update_ops_data [] (.vdict [("name", .vstr "a")]) "/x" .pynone (.nonlist true)
      = ⟨[], .vdict [("name", .vstr "a")],
         some (.typeError "remove_data must be a list of string or tuples")⟩ :=
  (claim2_amended [] (.vdict [("name", .vstr "a")]) "/x").2.1 .pynone rfl

/-- C5: a declared replace or remove path with at least two segments, one
of whose non-final segments is absent from the dictionary reached at the
corresponding nesting level, makes both walks silent no-ops: no
exception, no emitted operation, no snapshot mutation; accordingly a call
of append_update_ops_data declaring only that entry appends nothing and
changes nothing. -/
theorem claim5_missing_path_safety {d : Value} {p : List String} (hm : MissingMid d p)
    (path : String) (v : Value) (ops : List Op) :
    recursive_replace d path p v = (d, [], none)
    ∧ recursive_delete d path p = (d, [], none)
    ∧ append_update_ops_data ops d path (.dict [(.tup p, v)]) .pynone = ⟨ops, d, none⟩
    ∧ append_update_ops_data ops d path .pynone (.list [.tup p]) = ⟨ops, d, none⟩ := by
  have hr := mm_replace hm path v
  have hd := mm_delete hm path
  refine ⟨hr, hd, ?_, ?_⟩
  · simp [append_update_ops_data, replaceLoop, PKey.toPath, hr, removePhase]
  · simp [append_update_ops_data, removePhase, removeLoop, PKey.toPath, hd]

/-- C5 witness: a two-segment path whose first segment is absent. -/
theorem claim5_witness :
    append_update_ops_data [] (.vdict [("x", .vint 1)]) "/x"
        (.dict [(.tup ["a", "b"], .vint 5)]) .pynone
      = ⟨[], .vdict [("x", .vint 1)], none⟩ :=
  (claim5_missing_path_safety
    (MissingMid.here [("x", .vint 1)] "a" "b" [] rfl) "/x" (.vint 5) []).2.2.1

/-- C9: the deep prune remove_none_values is idempotent on every nested
structure of dictionaries, lists and scalars. -/
theorem claim9_prune_idempotent (v : Value) :
    remove_none_values (remove_none_values v) = remove_none_values v :=
  rnv_fix v

/-- C4 counterexample: with overlapping declared paths, (a, b) before
(a), the second call with the same replace set against the snapshot
produced by the first call appends two further operations instead of
zero: the first call leaves a = (b = 2), so the entry for path (a, b)
with value 1 fires again, and then the entry for path (a) fires again. -/
theorem claim4_counterexample :
    (append_update_ops_data [] (.vdict [("a", .vdict [("b", .vint 0)])]) "/x"
        (.dict [(.tup ["a", "b"], .vint 1), (.tup ["a"], .vdict [("b", .vint 2)])])
        .pynone).ops.length = 2
    ∧ (append_update_ops_data
        (append_update_ops_data [] (.vdict [("a", .vdict [("b", .vint 0)])]) "/x"
          (.dict [(.tup ["a", "b"], .vint 1), (.tup ["a"], .vdict [("b", .vint 2)])])
          .pynone).ops
        (append_update_ops_data [] (.vdict [("a", .vdict [("b", .vint 0)])]) "/x"
          (.dict [(.tup ["a", "b"], .vint 1), (.tup ["a"], .vdict [("b", .vint 2)])])
          .pynone).data
        "/x"
        (.dict [(.tup ["a", "b"], .vint 1), (.tup ["a"], .vdict [("b", .vint 2)])])
        .pynone).ops.length = 4 :=
  ⟨rfl, rfl⟩

/-- C4 amended: for every snapshot, base path and replace set whose
declared paths are pairwise incomparable (no declared path is a prefix
of, equal to, or an extension of another declared path), a second call of
append_update_ops_data with the same replace set and no remove set,
against the snapshot resulting from the first call, appends zero
operations. -/
theorem claim4_idempotent_incomparable (ops : List Op) (data : Value) (path : String)
    (res : List (PKey × Value))
    (hp : res.Pairwise (fun a b => PathIncomp a.1.toPath b.1.toPath)) :
    (append_update_ops_data
        (append_update_ops_data ops data path (.dict res) .pynone).ops
        (append_update_ops_data ops data path (.dict res) .pynone).data
        path (.dict res) .pynone).ops
      = (append_update_ops_data ops data path (.dict res) .pynone).ops := by
  by_cases hres : res.isEmpty = true
  · simp [append_update_ops_data, hres, removePhase]
  · have hK := replaceLoop_self path res data hp
    cases hr : (replaceLoop data path res).2.2 with
    | some e =>
        rw [hr] at hK
        simp [append_update_ops_data, hres, hr, hK, removePhase]
    | none =>
        rw [hr] at hK
        simp [append_update_ops_data, hres, hr, hK, removePhase]

/-- C4 witness: two disjoint one-segment paths. -/
theorem claim4_witness :
    (append_update_ops_data
        (append_update_ops_data [] (.vdict [("name", .vstr "a")]) "/x"
          (.dict [(.tup ["name"], .vstr "b"), (.tup ["desc"], .vstr "d")]) .pynone).ops
        (append_update_ops_data [] (.vdict [("name", .vstr "a")]) "/x"
          (.dict [(.tup ["name"], .vstr "b"), (.tup ["desc"], .vstr "d")]) .pynone).data
        "/x" (.dict [(.tup ["name"], .vstr "b"), (.tup ["desc"], .vstr "d")]) .pynone).ops
      = (append_update_ops_data [] (.vdict [("name", .vstr "a")]) "/x"
          (.dict [(.tup ["name"], .vstr "b"), (.tup ["desc"], .vstr "d")]) .pynone).ops :=
  claim4_idempotent_incomparable [] (.vdict [("name", .vstr "a")]) "/x"
    [(.tup ["name"], .vstr "b"), (.tup ["desc"], .vstr "d")] (by decide)

/-- C6: in every call of append_update_ops_data with a replace set and a
remove set, the appended operations decompose as the replace-loop
contribution followed by the remove-loop contribution: every emitted
replace operation precedes every emitted remove operation, and within
each phase the operations appear entry by entry in the declaration's own
iteration order, each entry contributing nothing or exactly its own
operation at its own declared path. -/
theorem claim6_ordering (ops : List Op) (data : Value) (path : String)
    (res : List (PKey × Value)) (rms : List PKey) :
    ∃ rops dops,
      (append_update_ops_data ops data path (.dict res) (.list rms)).ops
        = ops ++ rops ++ dops
      ∧ RepChunks path res rops ∧ RemChunks path rms dops
      ∧ (∀ o ∈ rops, ∃ s w, o = .replace s w)
      ∧ (∀ o ∈ dops, ∃ s, o = .remove s) := by
  by_cases hres : res.isEmpty = true
  · by_cases hrms : rms.isEmpty = true
    · refine ⟨[], [], ?_, RepChunks_nil_ops path res, RemChunks_nil_ops path rms, ?_, ?_⟩
      · simp [append_update_ops_data, hres, removePhase, hrms]
      · intro o ho; cases ho
      · intro o ho; cases ho
    · refine ⟨[], (removeLoop data path rms).2.1, ?_,
        RepChunks_nil_ops path res, removeLoop_chunks path rms data, ?_, ?_⟩
      · simp [append_update_ops_data, hres, removePhase, hrms]
      · intro o ho; cases ho
      · exact RemChunks_all_remove (removeLoop_chunks path rms data)
  · cases hr : (replaceLoop data path res).2.2 with
    | some e =>
        refine ⟨(replaceLoop data path res).2.1, [], ?_,
          replaceLoop_chunks path res data, RemChunks_nil_ops path rms, ?_, ?_⟩
        · simp [append_update_ops_data, hres, hr]
        · exact RepChunks_all_replace (replaceLoop_chunks path res data)
        · intro o ho; cases ho
    | none =>
        by_cases hrms : rms.isEmpty = true
        · refine ⟨(replaceLoop data path res).2.1, [], ?_,
            replaceLoop_chunks path res data, RemChunks_nil_ops path rms, ?_, ?_⟩
          · simp [append_update_ops_data, hres, hr, removePhase, hrms]
          · exact RepChunks_all_replace (replaceLoop_chunks path res data)
          · intro o ho; cases ho
        · refine ⟨(replaceLoop data path res).2.1,
            (removeLoop (replaceLoop data path res).1 path rms).2.1, ?_,
            replaceLoop_chunks path res data,
            removeLoop_chunks path rms (replaceLoop data path res).1, ?_, ?_⟩
          · simp [append_update_ops_data, hres, hr, removePhase, hrms]
          · exact RepChunks_all_replace (replaceLoop_chunks path res data)
          · exact RemChunks_all_remove (removeLoop_chunks path rms _)

/-- C10 counterexample: the snapshot entry at key path (a, b) is not
equal to the full path (a) of the only declared replace entry, yet it is
destroyed by the call: replacing the parent object at (a) wipes its
descendants, so equality with a declared full path is not the right
frame condition. -/
theorem claim10_counterexample :
    getPath (.vdict [("a", .vdict [("b", .vint 1)])]) ["a", "b"] = some (.vint 1)
    ∧ getPath (append_update_ops_data [] (.vdict [("a", .vdict [("b", .vint 1)])]) "/x"
        (.dict [(.tup ["a"], .vint 5)]) .pynone).data ["a", "b"] = none
    ∧ (["a", "b"] : List String) ≠ ["a"] :=
  ⟨rfl, rfl, by decide⟩

/-- C10 amended: every snapshot location whose key path is incomparable
to the full path of every declared replace entry and of every declared
remove entry (neither a prefix of it, equal to it, nor an extension of
it) is left unchanged by append_update_ops_data: the walks mutate the
snapshot only at and below the final segment of declared paths, plus the
dictionaries on the way there. -/
theorem claim10_frame (ops : List Op) (data : Value) (path : String)
    (res : List (PKey × Value)) (rms : List PKey) (q : List String)
    (hrep : ∀ en ∈ res, PathIncomp q en.1.toPath)
    (hrem : ∀ k ∈ rms, PathIncomp q k.toPath) :
    getPath (append_update_ops_data ops data path (.dict res) (.list rms)).data q
      = getPath data q := by
  have hrl := replaceLoop_frame path res data q hrep
  by_cases hres : res.isEmpty = true
  · by_cases hrms : rms.isEmpty = true
    · simp [append_update_ops_data, hres, removePhase, hrms]
    · simp only [append_update_ops_data, hres, if_pos, removePhase, hrms, if_neg,
        Bool.false_eq_true, if_false]
      exact removeLoop_frame path rms data q hrem
  · cases hr : (replaceLoop data path res).2.2 with
    | some e =>
        simp only [append_update_ops_data, hres, Bool.false_eq_true, if_false, hr]
        exact hrl
    | none =>
        by_cases hrms : rms.isEmpty = true
        · simp only [append_update_ops_data, hres, Bool.false_eq_true, if_false, hr,
            removePhase, hrms, if_true]
          exact hrl
        · simp only [append_update_ops_data, hres, Bool.false_eq_true, if_false, hr,
            removePhase, hrms]
          rw [removeLoop_frame path rms _ q hrem, hrl]

/-- C10 witness: a location disjoint from both declared paths is
untouched. -/
theorem claim10_witness :
    getPath (append_update_ops_data [] (.vdict [("a", .vint 1), ("z", .vint 2)]) "/x"
        (.dict [(.tup ["a"], .vint 5)]) (.list [.tup ["zz"]])).data ["z"]
      = getPath (.vdict [("a", .vint 1), ("z", .vint 2)]) ["z"] :=
  claim10_frame [] (.vdict [("a", .vint 1), ("z", .vint 2)]) "/x"
    [(.tup ["a"], .vint 5)] [.tup ["zz"]] ["z"]
    (by
      intro en hen
      rw [List.mem_singleton] at hen
      subst hen
      exact (by decide : PathIncomp ["z"] ["a"]))
    (by
      intro k hk
      rw [List.mem_singleton] at hk
      subst hk
      exact (by decide : PathIncomp ["z"] ["zz"]))

/-- C3 counterexample: with an empty source mapping and a nonempty key
mapping, map_keys_to_new_dict returns the empty mapping, whose key set
does not contain the declared destination key b, instead of mapping b to
the no-value marker. -/
theorem claim3_counterexample :
    map_keys_to_new_dict (some []) [("a", "b")] = []
    ∧ (lookupV (map_keys_to_new_dict (some []) [("a", "b")]) "b").isSome = false
    ∧ "b" ∈ ([("a", "b")] : List (String × String)).map Prod.snd :=
  ⟨rfl, rfl, by decide⟩

/-- C3 amended: when the source mapping is nonempty, the result of
map_keys_to_new_dict has exactly the key mapping's destination keys, and
each destination key that is declared by a single source key carries the
source mapping's value for that source key, with the no-value marker for
a missing source key; when the source mapping is absent or empty the
result is the empty mapping (shown by the counterexample). -/
theorem claim3_renaming (input : List (String × Value)) (km : List (String × String))
    (hne : input ≠ []) :
    (∀ k2, (lookupV (map_keys_to_new_dict (some input) km) k2).isSome = true
        ↔ k2 ∈ km.map Prod.snd)
    ∧ (∀ old new, (old, new) ∈ km → (∀ e ∈ km, e.2 = new → e.1 = old) →
        lookupV (map_keys_to_new_dict (some input) km) new = some (pyGet input old)) := by
  have hemp : input.isEmpty = false := by
    cases input with
    | nil => exact absurd rfl hne
    | cons a rest => rfl
  constructor
  · intro k2
    simp [map_keys_to_new_dict, hemp, mapKeysLoop_isSome input km [] k2, lookupV]
  · intro old new hmem huniq
    simp only [map_keys_to_new_dict, hemp, Bool.false_eq_true, if_false]
    exact mapKeysLoop_value input km [] old new hmem huniq

/-- C3 witness: renaming two keys, one present and one absent in the
source mapping. -/
theorem claim3_witness :
    lookupV (map_keys_to_new_dict (some [("multicast", .vbool true)])
        [("multicast", "afMast"), ("unicast", "afUcast")]) "afMast"
      = some (pyGet [("multicast", .vbool true)] "multicast") :=
  (claim3_renaming [("multicast", .vbool true)] [("multicast", "afMast"), ("unicast", "afUcast")]
    (List.cons_ne_nil _ _)).2 "multicast" "afMast" (by decide) (by decide)

/-- C7 counterexample: when the target mapping already contains the key
prefix plus source key, the merge overwrites that entry in place, so it
adds zero new entries although the source mapping has one entry. -/
theorem claim7_counterexample :
    merge_sub_dict_into_main [(.tup ["p", "a"], .vint 1)] [("a", .vint 2)] ["p"]
      = [(.tup ["p", "a"], .vint 2)]
    ∧ (merge_sub_dict_into_main [(.tup ["p", "a"], .vint 1)] [("a", .vint 2)] ["p"]).length
      ≠ ([(.tup ["p", "a"], .vint 1)] : List (PKey × Value)).length
        + ([("a", .vint 2)] : List (String × Value)).length :=
  ⟨rfl, by decide⟩

/-- C7 amended: with an empty source mapping the target is unchanged;
with a nonempty source mapping whose keys are distinct and whose prefixed
keys are all absent from the target, the merge appends exactly one entry
per source entry, keyed by the tuple prefix plus source key with the
corresponding source value, so exactly len(source) entries are added. -/
theorem claim7_prefix_merge (main : List (PKey × Value)) (sub : List (String × Value))
    (pre : List String) (hnd : (sub.map Prod.fst).Nodup)
    (hfresh : ∀ k2 ∈ sub.map Prod.fst, lookupPK main (.tup (pre ++ [k2])) = none) :
    merge_sub_dict_into_main main sub pre
      = main ++ sub.map (fun en => (.tup (pre ++ [en.1]), en.2))
    ∧ (merge_sub_dict_into_main main sub pre).length = main.length + sub.length := by
  by_cases hs : sub.isEmpty = true
  · have hnil : sub = [] := by
      cases sub with
      | nil => rfl
      | cons a rest => simp at hs
    subst hnil
    simp [merge_sub_dict_into_main]
  · have heq := mergeLoop_fresh pre sub main hnd hfresh
    constructor
    · simp only [merge_sub_dict_into_main, hs, Bool.false_eq_true, if_false]
      exact heq
    · simp only [merge_sub_dict_into_main, hs, Bool.false_eq_true, if_false]
      simp [heq]

/-- C7 witness: merging one fresh sub entry adds exactly one entry. -/
theorem claim7_witness :
    (merge_sub_dict_into_main [(.bare "peerAsn", .vint 1)] [("afMast", .vbool true)]
        ["addressTypeControls"]).length
      = ([(.bare "peerAsn", .vint 1)] : List (PKey × Value)).length
        + ([("afMast", .vbool true)] : List (String × Value)).length :=
  (claim7_prefix_merge [(.bare "peerAsn", .vint 1)] [("afMast", .vbool true)]
    ["addressTypeControls"] (by decide)
    (by
      intro k2 hk
      simp only [List.map_cons, List.map_nil, List.mem_singleton] at hk
      subst hk
      rfl)).2

/-- C8: the value recorded in an emitted replace operation is a deep copy
(utils.py line 105, modelled by allocV): it lives entirely in freshly
allocated heap nodes, so mutating in place any object that existed before
the copy, in particular the original new-value object, leaves the
recorded value unchanged at every read depth. -/
theorem claim8_deepcopy_isolation (h : List HNode) (v : Value) (a : Nat) (n : HNode)
    (ha : a < h.length) (fuel : Nat) :
    resolveN fuel (heapSet (allocV h v).1 a n) (allocV h v).2
      = resolveN fuel (allocV h v).1 (allocV h v).2 := by
  apply resolveN_frame fuel (allocV h v).1 _ h.length
  · exact allocV_good h v h.length (Nat.le_refl _) (GoodFrom_trivial h)
  · intro j hj
    exact heapGet_heapSet_ne _ a n j (fun hh => (Nat.not_lt.mpr (hh ▸ hj)) ha)
  · exact allocV_root_ge h v

/-- C8 witness: a concrete heap holding the original object at address 0;
after the deep copy, overwriting address 0 does not change the resolved
copy, which still reads back as the copied value. -/
theorem claim8_witness :
    resolveN 3 (heapSet (allocV [.hscalar (.vint 7)] (.vdict [("name", .vstr "b")])).1 0
        (.hscalar (.vint 9)))
      (allocV [.hscalar (.vint 7)] (.vdict [("name", .vstr "b")])).2
      = resolveN 3 (allocV [.hscalar (.vint 7)] (.vdict [("name", .vstr "b")])).1
          (allocV [.hscalar (.vint 7)] (.vdict [("name", .vstr "b")])).2
    ∧ resolveN 3 (allocV [.hscalar (.vint 7)] (.vdict [("name", .vstr "b")])).1
        (allocV [.hscalar (.vint 7)] (.vdict [("name", .vstr "b")])).2
      = some (.vdict [("name", .vstr "b")]) :=
  ⟨claim8_deepcopy_isolation [.hscalar (.vint 7)] (.vdict [("name", .vstr "b")]) 0
      (.hscalar (.vint 9)) (by decide) 3, rfl⟩

end MsoUtils
